import Mathlib

/-!
# Verification of the fixed-capacity memory pool (`src/memory_pool.cpp`)

Shallow embedding of `MemoryPoolBase`: a fixed-capacity, fixed-entry-size
slab allocator with an intrusive LIFO free list threaded through the
first machine word of each free slot.

Modelling conventions:
* An entry is identified by its index `i < capacity`; the address of entry
  `i` is `pool_mem_ + i * entry_size_`, modelled by `element_at` below with
  the (64-byte aligned) block base passed explicitly as a natural number.
* `slots` holds the first machine word of every entry in index order
  (`slots.length = capacity`); reads outside the block — undefined
  behavior in the C++ — fall back to `List.getD`'s default.
* `next_free_` is a pointer, either null (`none`) or the address of entry
  `h` (`some h`); the model stores the index `h` since
  `index_of (element_at h) = h` for a positive entry size.
* The backing block is assumed successfully allocated for the operational
  model; the (unchecked) allocation-failure path of the constructor is
  modelled separately by `constructPool`.
-/

/-- State of a `MemoryPoolBase`: the fields `max_entries_`, `entry_size_`,
`num_free_entries_`, the block contents (first word of each slot), and
`next_free_` as the index of the slot it points to (`none` for null). -/
structure PoolState where
  capacity : Nat
  entry_size : Nat
  num_free_entries : Nat
  slots : List Nat
  next_free : Option Nat
deriving Repr, DecidableEq

/-- The constructor `MemoryPoolBase(entry_size, max_entries)`: stores the
sizes, sets `num_free_entries_ = max_entries`, points `next_free_` at the
block base (= entry 0), and writes `i + 1` into the first word of every
entry `i < max_entries` (so the last entry stores the sentinel
`max_entries`). -/
def mkPool (entry_size max_entries : Nat) : PoolState :=
  { capacity := max_entries
    entry_size := entry_size
    num_free_entries := max_entries
    slots := (List.range max_entries).map (fun i => i + 1)
    next_free := some 0 }

/-- `MemoryPoolBase::allocate`, returning the allocated entry's index (or
`none` for a null return) together with the updated state.

The inner `none` branch corresponds to dereferencing a null `next_free_`
with `num_free_entries_ > 1` — undefined behavior in the C++ that is
unreachable from any precondition-respecting call sequence (see
`reach_inv`); the model returns null and leaves the state unchanged
there. -/
def allocate (s : PoolState) : Option Nat × PoolState :=
  if 1 < s.num_free_entries then
    match s.next_free with
    | some h =>
        (some h, { s with num_free_entries := s.num_free_entries - 1
                          next_free := some (s.slots.getD h 0) })
    | none => (none, s)
  else if s.num_free_entries = 1 then
    (s.next_free, { s with num_free_entries := 0, next_free := none })
  else
    (none, s)

/-- `MemoryPoolBase::deallocate(ptr)` for `ptr` = address of entry `p`:
stores `index_of(next_free_)` (or the sentinel `max_entries_` when
`next_free_` is null) into the first word of entry `p`, points
`next_free_` at `p`, and increments `num_free_entries_`. -/
def deallocate (s : PoolState) (p : Nat) : PoolState :=
  let index := match s.next_free with
    | some h => h
    | none => s.capacity
  { s with slots := s.slots.set p index
           next_free := some p
           num_free_entries := s.num_free_entries + 1 }

/-- The `MemoryPoolStats` record returned by `get_stats`. -/
structure MemoryPoolStats where
  block_count : Nat
  allocation_count : Nat
deriving Repr, DecidableEq

/-- `MemoryPoolBase::get_stats`: one block, and
`allocation_count = max_entries_ - num_free_entries_`. -/
def get_stats (s : PoolState) : MemoryPoolStats :=
  { block_count := 1
    allocation_count := s.capacity - s.num_free_entries }

/-- `MemoryPoolBase::element_at(index)` = `pool_mem_ + index * entry_size_`,
with the block base address `block` passed explicitly. -/
def element_at (s : PoolState) (block index : Nat) : Nat :=
  block + index * s.entry_size

/-- The destructor's assertion `num_free_entries_ == max_entries_`. -/
def destructor_check (s : PoolState) : Prop :=
  s.num_free_entries = s.capacity

/-- `n` consecutive calls to `allocate`, collecting the returned values in
order together with the final state. -/
def allocRun : PoolState → Nat → List (Option Nat) × PoolState
  | s, 0 => ([], s)
  | s, n + 1 =>
    let r := allocate s
    let rest := allocRun r.2 n
    (r.1 :: rest.1, rest.2)

/-- The state of a fresh pool of capacity `N` after its first `j` (≤ `N`)
allocations: the free chain is `j, j+1, …, N-1` and the block contents are
untouched. -/
def midState (e N j : Nat) : PoolState :=
  { capacity := N
    entry_size := e
    num_free_entries := N - j
    slots := (List.range N).map (fun i => i + 1)
    next_free := if j < N then some j else none }

/-- Result of running the constructor with a given block-allocation
outcome: the value `malloc_block` returned (`none` = null) and the
resulting pool state. -/
structure ConstructResult where
  pool_mem : Option Nat
  state : PoolState
deriving Repr, DecidableEq

/-- The constructor with its block-allocation outcome made explicit
(`blk = none` models `malloc_block` returning null). The C++ member
initializers store the result unconditionally and the body initializes the
free chain with no null check and no error path, so construction always
completes (`Except.ok`) — even with a null block, where the free-chain
writes are undefined behavior. -/
def constructPool (entry_size max_entries : Nat) (blk : Option Nat) :
    Except Unit ConstructResult :=
  Except.ok { pool_mem := blk, state := mkPool entry_size max_entries }

/-- The intrusive free list of `s` is exactly the index list `fl`:
`next_free_` points at its head, each element's stored word links to the
next element (the last element's word is unconstrained: `allocate` never
reads it), the indices are distinct and in range, and there are
`num_free_entries_` of them. -/
def FreeChain (s : PoolState) (fl : List Nat) : Prop :=
  s.next_free = fl.head? ∧
  List.Chain' (fun a b => s.slots.getD a 0 = b) fl ∧
  fl.Nodup ∧
  (∀ a ∈ fl, a < s.capacity) ∧
  fl.length = s.num_free_entries

/-- Full invariant tying a pool state to the set `L` of currently live
(allocated, not yet deallocated) entry indices: some free chain is
disjoint from `L` and together they cover every index of the pool. -/
def PoolInv (e N : Nat) (s : PoolState) (L : Finset Nat) : Prop :=
  s.capacity = N ∧ s.entry_size = e ∧ s.slots.length = N ∧
  (∀ i ∈ L, i < N) ∧
  ∃ fl, FreeChain s fl ∧ (∀ a ∈ fl, a ∉ L) ∧
    (∀ i, i < N → i ∈ L ∨ i ∈ fl)

/-- States reachable from a fresh pool (capacity > 0, per the constructor
precondition) by precondition-respecting `allocate`/`deallocate` calls,
together with the set of live entry indices. `deallocate` requires its
argument to be a currently live entry. -/
inductive Reach (e N : Nat) : PoolState → Finset Nat → Prop
  | init : 0 < N → Reach e N (mkPool e N) ∅
  | alloc {s L p} : Reach e N s L → (allocate s).1 = some p →
      Reach e N (allocate s).2 (insert p L)
  | allocFail {s L} : Reach e N s L → (allocate s).1 = none →
      Reach e N (allocate s).2 L
  | dealloc {s L p} : Reach e N s L → p ∈ L →
      Reach e N (deallocate s p) (L.erase p)

/-! ## Basic lemmas about slot reads and writes -/

theorem getD_set_self (l : List Nat) (p v : Nat) (h : p < l.length) :
    (l.set p v).getD p 0 = v := by
  simp [List.getD, List.getElem?_set_eq_of_lt _ h]

theorem getD_set_ne (l : List Nat) (p v q : Nat) (h : q ≠ p) :
    (l.set p v).getD q 0 = l.getD q 0 := by
  simp [List.getD, List.getElem?_set_ne (fun hpq => h hpq.symm)]

theorem getD_initSlots (N i : Nat) (h : i < N) :
    ((List.range N).map (fun k => k + 1)).getD i 0 = i + 1 := by
  simp [List.getD, List.getElem?_map, List.getElem?_range, h]

/-! ## Case lemmas for `allocate` -/

theorem allocate_of_exhausted (s : PoolState) (h : s.num_free_entries = 0) :
    allocate s = (none, s) := by
  simp [allocate, h]

theorem allocate_of_one (s : PoolState) (h : s.num_free_entries = 1) :
    allocate s =
      (s.next_free, { s with num_free_entries := 0, next_free := none }) := by
  simp [allocate, h]

theorem allocate_of_many (s : PoolState) (a : Nat)
    (h : 1 < s.num_free_entries) (hh : s.next_free = some a) :
    allocate s =
      (some a, { s with num_free_entries := s.num_free_entries - 1
                        next_free := some (s.slots.getD a 0) }) := by
  simp [allocate, h, hh]

/-- After any `deallocate`, the very next `allocate` hands back exactly the
entry just freed: `deallocate` leaves `next_free_` pointing at it with
`num_free_entries_ ≥ 1`, and both success branches of `allocate` return
`next_free_`. -/
theorem allocate_deallocate (s : PoolState) (p : Nat) :
    (allocate (deallocate s p)).1 = some p := by
  have hnf : (deallocate s p).next_free = some p := rfl
  have hcnt : (deallocate s p).num_free_entries = s.num_free_entries + 1 := rfl
  by_cases h : 1 < (deallocate s p).num_free_entries
  · rw [allocate_of_many _ p h hnf]
  · have h1 : (deallocate s p).num_free_entries = 1 := by omega
    rw [allocate_of_one _ h1, hnf]

/-! ## Runs of consecutive allocations -/

theorem allocRun_zero (s : PoolState) : allocRun s 0 = ([], s) := rfl

theorem allocRun_succ (s : PoolState) (n : Nat) :
    allocRun s (n + 1) =
      ((allocate s).1 :: (allocRun (allocate s).2 n).1,
        (allocRun (allocate s).2 n).2) := rfl

theorem allocRun_of_exhausted (s : PoolState) (k : Nat)
    (h : s.num_free_entries = 0) :
    allocRun s k = (List.replicate k none, s) := by
  induction k with
  | zero => rfl
  | succ k ih =>
      rw [allocRun_succ, allocate_of_exhausted s h, ih]
      simp [List.replicate_succ]

theorem mkPool_eq_midState (e N : Nat) (h : 0 < N) :
    mkPool e N = midState e N 0 := by
  simp [mkPool, midState, h]

theorem allocate_midState (e N j : Nat) (h : j < N) :
    allocate (midState e N j) = (some j, midState e N (j + 1)) := by
  have hnf : (midState e N j).next_free = some j := by simp [midState, h]
  by_cases h2 : 1 < (midState e N j).num_free_entries
  · have hj1 : j + 1 < N := by
      simp only [midState] at h2; omega
    rw [allocate_of_many _ j h2 hnf]
    have hs : (midState e N j).slots.getD j 0 = j + 1 := getD_initSlots N j h
    rw [hs]
    simp [midState, hj1, Nat.sub_sub]
  · have h1 : (midState e N j).num_free_entries = 1 := by
      simp only [midState] at h2 ⊢; omega
    rw [allocate_of_one _ h1, hnf]
    have hj1 : ¬ j + 1 < N := by
      simp only [midState] at h1; omega
    have hz : N - (j + 1) = 0 := by
      simp only [midState] at h1; omega
    simp [midState, hj1, hz]

theorem allocRun_midState (e N j k : Nat) (h : j + k ≤ N) :
    allocRun (midState e N j) k =
      ((List.range' j k).map some, midState e N (j + k)) := by
  induction k generalizing j with
  | zero => simp [allocRun_zero]
  | succ k ih =>
      rw [allocRun_succ, allocate_midState e N j (by omega)]
      rw [ih (j + 1) (by omega)]
      have hjk : j + 1 + k = j + (k + 1) := by omega
      simp [List.range', hjk]

/-! ## Writing a slot does not disturb the free chain through other slots -/

theorem chain'_set_of_not_mem (slots : List Nat) (p v : Nat) (fl : List Nat)
    (hp : p ∉ fl)
    (hc : List.Chain' (fun a b => slots.getD a 0 = b) fl) :
    List.Chain' (fun a b => (slots.set p v).getD a 0 = b) fl := by
  induction fl with
  | nil => simp
  | cons a tl ih =>
      rw [List.chain'_cons'] at hc ⊢
      obtain ⟨h1, h2⟩ := hc
      refine ⟨?_, ih (fun hm => hp (List.mem_cons_of_mem a hm)) h2⟩
      intro y hy
      have hanep : a ≠ p := by
        rintro rfl; exact hp (List.mem_cons_self a tl)
      rw [getD_set_ne _ _ _ _ hanep]
      exact h1 y hy

/-! ## The free-list invariant is established and preserved -/

theorem poolInv_init (e N : Nat) (h : 0 < N) : PoolInv e N (mkPool e N) ∅ := by
  refine ⟨rfl, rfl, by simp [mkPool], by simp, List.range N,
    ⟨?_, ?_, List.nodup_range N, ?_, by simp [mkPool]⟩, by simp, ?_⟩
  · cases N with
    | zero => omega
    | succ m => simp [mkPool, List.range_succ_eq_map]
  · cases N with
    | zero => simp
    | succ m =>
        rw [List.chain'_range_succ]
        intro i hi
        exact getD_initSlots (m + 1) i (by omega)
  · intro a ha
    simpa [mkPool] using List.mem_range.mp ha
  · intro i hi
    exact Or.inr (List.mem_range.mpr hi)

theorem poolInv_alloc (e N : Nat) (s : PoolState) (L : Finset Nat) (p : Nat)
    (hI : PoolInv e N s L) (hA : (allocate s).1 = some p) :
    p < N ∧ p ∉ L ∧ PoolInv e N (allocate s).2 (insert p L) := by
  obtain ⟨hcap, hesz, hlen, hlive, fl, ⟨hnf, hch, hnd, hbd, hcnt⟩, hdisj, hcov⟩ := hI
  cases fl with
  | nil =>
      have h0 : s.num_free_entries = 0 := by simpa using hcnt.symm
      rw [allocate_of_exhausted s h0] at hA
      cases hA
  | cons a tl =>
      have hnfa : s.next_free = some a := by simpa using hnf
      have haN : a < N := hcap ▸ hbd a (by simp)
      have hanL : a ∉ L := hdisj a (by simp)
      cases tl with
      | nil =>
          have h1 : s.num_free_entries = 1 := by simpa using hcnt.symm
          rw [allocate_of_one s h1, hnfa] at hA
          obtain rfl : a = p := Option.some.inj hA
          refine ⟨haN, hanL, ?_⟩
          rw [allocate_of_one s h1]
          refine ⟨hcap, hesz, hlen, ?_, [], ⟨by simp, by simp, by simp, by simp, by simp⟩,
            by simp, ?_⟩
          · intro i hi
            rcases Finset.mem_insert.mp hi with rfl | hiL
            · exact haN
            · exact hlive i hiL
          · intro i hi
            rcases hcov i hi with hiL | hifl
            · exact Or.inl (Finset.mem_insert_of_mem hiL)
            · simp only [List.mem_singleton] at hifl
              exact Or.inl (hifl ▸ Finset.mem_insert_self a L)
      | cons b tl' =>
          have h2 : 1 < s.num_free_entries := by
            rw [← hcnt]; simp
          rw [allocate_of_many s a h2 hnfa] at hA
          obtain rfl : a = p := Option.some.inj hA
          have hab : s.slots.getD a 0 = b := (List.chain'_cons.mp hch).1
          refine ⟨haN, hanL, ?_⟩
          rw [allocate_of_many s a h2 hnfa]
          have hnd' := List.nodup_cons.mp hnd
          refine ⟨hcap, hesz, hlen, ?_, b :: tl',
            ⟨by exact congrArg some hab, (List.chain'_cons.mp hch).2, hnd'.2, ?_, ?_⟩, ?_, ?_⟩
          · intro i hi
            rcases Finset.mem_insert.mp hi with rfl | hiL
            · exact haN
            · exact hlive i hiL
          · intro x hx
            exact hbd x (List.mem_cons_of_mem a hx)
          · simp only [List.length_cons] at hcnt ⊢
            omega
          · intro x hx
            have hxa : x ≠ a := fun hh => hnd'.1 (hh ▸ hx)
            intro hmem
            rcases Finset.mem_insert.mp hmem with rfl | hxL
            · exact hxa rfl
            · exact hdisj x (List.mem_cons_of_mem a hx) hxL
          · intro i hi
            rcases hcov i hi with hiL | hifl
            · exact Or.inl (Finset.mem_insert_of_mem hiL)
            · rcases List.mem_cons.mp hifl with rfl | hitl
              · exact Or.inl (Finset.mem_insert_self i L)
              · exact Or.inr hitl

theorem poolInv_alloc_fail (e N : Nat) (s : PoolState) (L : Finset Nat)
    (hI : PoolInv e N s L) (hF : (allocate s).1 = none) :
    s.num_free_entries = 0 ∧ (allocate s).2 = s := by
  obtain ⟨hcap, hesz, hlen, hlive, fl, ⟨hnf, hch, hnd, hbd, hcnt⟩, hdisj, hcov⟩ := hI
  cases fl with
  | nil =>
      have h0 : s.num_free_entries = 0 := by simpa using hcnt.symm
      rw [allocate_of_exhausted s h0]
      exact ⟨h0, rfl⟩
  | cons a tl =>
      have hnfa : s.next_free = some a := by simpa using hnf
      cases tl with
      | nil =>
          have h1 : s.num_free_entries = 1 := by simpa using hcnt.symm
          rw [allocate_of_one s h1, hnfa] at hF
          cases hF
      | cons b tl' =>
          have h2 : 1 < s.num_free_entries := by rw [← hcnt]; simp
          rw [allocate_of_many s a h2 hnfa] at hF
          cases hF

theorem poolInv_dealloc (e N : Nat) (s : PoolState) (L : Finset Nat) (p : Nat)
    (hI : PoolInv e N s L) (hp : p ∈ L) :
    PoolInv e N (deallocate s p) (L.erase p) := by
  obtain ⟨hcap, hesz, hlen, hlive, fl, ⟨hnf, hch, hnd, hbd, hcnt⟩, hdisj, hcov⟩ := hI
  have hpN : p < N := hlive p hp
  have hpfl : p ∉ fl := fun h => hdisj p h hp
  refine ⟨hcap, hesz, by simp [deallocate, hlen], ?_, p :: fl,
    ⟨by simp [deallocate], ?_, List.nodup_cons.mpr ⟨hpfl, hnd⟩, ?_, ?_⟩, ?_, ?_⟩
  · intro i hi
    exact hlive i (Finset.mem_of_mem_erase hi)
  · rw [List.chain'_cons']
    refine ⟨?_, chain'_set_of_not_mem s.slots p _ fl hpfl hch⟩
    have hset : (s.slots.set p
          (match s.next_free with | some h => h | none => s.capacity)).getD p 0 =
        (match s.next_free with | some h => h | none => s.capacity) :=
      getD_set_self s.slots p _ (hlen ▸ hpN)
    intro y hy
    cases fl with
    | nil => simp at hy
    | cons a tl =>
        have hya : y = a := by simpa using hy.symm
        have hnfa : s.next_free = some a := by simpa using hnf
        simp only [deallocate]
        rw [hset, hnfa]
        exact hya.symm
  · intro x hx
    rcases List.mem_cons.mp hx with rfl | hxfl
    · simpa [deallocate, hcap] using hpN
    · simpa [deallocate] using hbd x hxfl
  · simp only [deallocate, List.length_cons]
    omega
  · intro x hx
    rcases List.mem_cons.mp hx with rfl | hxfl
    · exact Finset.not_mem_erase x L
    · intro hmem
      exact hdisj x hxfl (Finset.mem_of_mem_erase hmem)
  · intro i hi
    rcases hcov i hi with hiL | hifl
    · by_cases hip : i = p
      · exact Or.inr (hip ▸ List.mem_cons_self p fl)
      · exact Or.inl (Finset.mem_erase.mpr ⟨hip, hiL⟩)
    · exact Or.inr (List.mem_cons_of_mem p hifl)

/-- Every reachable pool state satisfies the free-list invariant. -/
theorem reach_inv (e N : Nat) (s : PoolState) (L : Finset Nat)
    (hR : Reach e N s L) : PoolInv e N s L := by
  induction hR with
  | init h => exact poolInv_init e N h
  | alloc hR hA ih => exact (poolInv_alloc e N _ _ _ ih hA).2.2
  | allocFail hR hF ih =>
      rw [(poolInv_alloc_fail e N _ _ ih hF).2]
      exact ih
  | dealloc hR hp ih => exact poolInv_dealloc e N _ _ _ ih hp

/-- Counting consequence of the invariant: the live set and the free list
partition the `N` entries. -/
theorem poolInv_card (e N : Nat) (s : PoolState) (L : Finset Nat)
    (hI : PoolInv e N s L) :
    L.card + s.num_free_entries = N ∧ s.num_free_entries ≤ N := by
  obtain ⟨hcap, hesz, hlen, hlive, fl, ⟨hnf, hch, hnd, hbd, hcnt⟩, hdisj, hcov⟩ := hI
  have hdis : Disjoint L fl.toFinset := by
    rw [Finset.disjoint_left]
    intro a haL hafl
    exact hdisj a (List.mem_toFinset.mp hafl) haL
  have hunion : L ∪ fl.toFinset = Finset.range N := by
    ext i
    simp only [Finset.mem_union, Finset.mem_range, List.mem_toFinset]
    constructor
    · rintro (h | h)
      · exact hlive i h
      · exact hcap ▸ hbd i h
    · intro h
      exact hcov i h
  have h2 : (L ∪ fl.toFinset).card = L.card + fl.toFinset.card :=
    Finset.card_union_of_disjoint hdis
  rw [hunion, Finset.card_range, List.toFinset_card_of_nodup hnd, hcnt] at h2
  omega

/-! ## Claim theorems -/

/-- C1: for every pool of capacity `N > 0`, starting fresh, `N` consecutive
`allocate()` calls all return non-null, the `N+1`-th returns null, and after
the `N` successful allocations `get_stats().allocation_count = N`. -/
theorem capacity_bound (e N : Nat) (h : 0 < N) :
    ((allocRun (mkPool e N) N).1.all fun r => r.isSome) = true ∧
    (allocate (allocRun (mkPool e N) N).2).1 = none ∧
    (get_stats (allocRun (mkPool e N) N).2).allocation_count = N := by
  have hrun : allocRun (mkPool e N) N =
      ((List.range' 0 N).map some, midState e N N) := by
    rw [mkPool_eq_midState e N h]
    simpa using allocRun_midState e N 0 N (by omega)
  rw [hrun]
  refine ⟨?_, ?_, ?_⟩
  · simp [List.all_eq_true]
  · rw [allocate_of_exhausted _ (by simp [midState])]
  · simp [get_stats, midState]

theorem capacity_bound_witness :
    0 < 3 ∧
    (((allocRun (mkPool 4 3) 3).1.all fun r => r.isSome) = true ∧
      (allocate (allocRun (mkPool 4 3) 3).2).1 = none ∧
      (get_stats (allocRun (mkPool 4 3) 3).2).allocation_count = 3) :=
  ⟨by decide, capacity_bound 4 3 (by decide)⟩

/-- C2: from any reachable state, if `allocate()` returns entry `p` and
`deallocate(p)` follows with nothing in between, the next `allocate()`
returns exactly `p` (LIFO reuse), and at least one free entry remains after
the three operations. -/
theorem lifo_reuse (e N : Nat) (s : PoolState) (L : Finset Nat) (p : Nat)
    (hR : Reach e N s L) (hA : (allocate s).1 = some p) :
    (allocate (deallocate (allocate s).2 p)).1 = some p ∧
    0 < (deallocate (allocate s).2 p).num_free_entries := by
  refine ⟨allocate_deallocate _ p, ?_⟩
  simp [deallocate]

theorem lifo_reuse_witness :
    (allocate (deallocate (allocate (mkPool 4 2)).2 0)).1 = some 0 ∧
    0 < (deallocate (allocate (mkPool 4 2)).2 0).num_free_entries :=
  lifo_reuse 4 2 (mkPool 4 2) ∅ 0 (Reach.init (by decide)) (by decide)

/-- C3: in every reachable state with no free entry, `allocate()` returns
null and leaves the state (free count, free head, block contents) entirely
unchanged, and a null return happens only in that situation. -/
theorem allocate_exhausted_spec (e N : Nat) (s : PoolState) (L : Finset Nat)
    (hR : Reach e N s L) :
    (s.num_free_entries = 0 → allocate s = (none, s)) ∧
    ((allocate s).1 = none → s.num_free_entries = 0) := by
  refine ⟨fun h => allocate_of_exhausted s h, fun hF => ?_⟩
  exact (poolInv_alloc_fail e N s L (reach_inv e N s L hR) hF).1

theorem allocate_exhausted_witness :
    ((allocate (mkPool 4 1)).2.num_free_entries = 0 →
      allocate (allocate (mkPool 4 1)).2 = (none, (allocate (mkPool 4 1)).2)) ∧
    ((allocate (allocate (mkPool 4 1)).2).1 = none →
      (allocate (mkPool 4 1)).2.num_free_entries = 0) :=
  allocate_exhausted_spec 4 1 (allocate (mkPool 4 1)).2 (insert 0 ∅)
    (Reach.alloc (p := 0) (Reach.init (by decide)) (by decide))

/-- C4: for a reachable state and a live entry `p`, `deallocate(p)` writes
the current free-head index into the first word of `p`'s slot (the sentinel
`capacity` if the free list was empty), points the free head at `p`, and
increments the free count. -/
theorem deallocate_spec (e N : Nat) (s : PoolState) (L : Finset Nat) (p : Nat)
    (hR : Reach e N s L) (hp : p ∈ L) :
    (deallocate s p).slots.getD p 0 =
      (match s.next_free with | some h => h | none => s.capacity) ∧
    (deallocate s p).next_free = some p ∧
    (deallocate s p).num_free_entries = s.num_free_entries + 1 := by
  obtain ⟨hcap, hesz, hlen, hlive, _⟩ := reach_inv e N s L hR
  have hpN : p < s.slots.length := hlen ▸ hlive p hp
  refine ⟨?_, rfl, rfl⟩
  simp only [deallocate]
  exact getD_set_self s.slots p _ hpN

theorem deallocate_spec_witness :
    ((deallocate (allocate (mkPool 4 1)).2 0).slots.getD 0 0 =
      (match (allocate (mkPool 4 1)).2.next_free with
        | some h => h
        | none => (allocate (mkPool 4 1)).2.capacity) ∧
      (deallocate (allocate (mkPool 4 1)).2 0).next_free = some 0 ∧
      (deallocate (allocate (mkPool 4 1)).2 0).num_free_entries =
        (allocate (mkPool 4 1)).2.num_free_entries + 1) :=
  deallocate_spec 4 1 (allocate (mkPool 4 1)).2 (insert 0 ∅) 0
    (Reach.alloc (p := 0) (Reach.init (by decide)) (by decide)) (by decide)

/-- C5: immediately after construction with `entry_size > 0` and
`capacity > 0`, the free count equals the capacity, the free head designates
entry 0, and every entry `i` stores `i + 1` in its first word, the last
entry thus storing the sentinel `capacity`. -/
theorem construction_spec (e N : Nat) (he : 0 < e) (hN : 0 < N) :
    (mkPool e N).num_free_entries = N ∧
    (mkPool e N).next_free = some 0 ∧
    (∀ i, i < N → (mkPool e N).slots.getD i 0 = i + 1) ∧
    (mkPool e N).slots.getD (N - 1) 0 = N := by
  refine ⟨rfl, rfl, fun i hi => getD_initSlots N i hi, ?_⟩
  have h := getD_initSlots N (N - 1) (by omega)
  show ((List.range N).map (fun i => i + 1)).getD (N - 1) 0 = N
  omega

theorem construction_spec_witness :
    0 < 4 ∧ 0 < 3 ∧ (mkPool 4 3).num_free_entries = 3 ∧
    (mkPool 4 3).next_free = some 0 ∧
    (mkPool 4 3).slots.getD 1 0 = 2 ∧
    (mkPool 4 3).slots.getD 2 0 = 3 :=
  ⟨by decide, by decide, (construction_spec 4 3 (by decide) (by decide)).1,
    (construction_spec 4 3 (by decide) (by decide)).2.1,
    (construction_spec 4 3 (by decide) (by decide)).2.2.1 1 (by decide),
    (construction_spec 4 3 (by decide) (by decide)).2.2.2⟩

/-- C6: in every reachable state, `0 ≤ free_count ≤ capacity` and
`get_stats().allocation_count + free_count = capacity`. -/
theorem conservation (e N : Nat) (s : PoolState) (L : Finset Nat)
    (hR : Reach e N s L) :
    s.num_free_entries ≤ s.capacity ∧
    (get_stats s).allocation_count + s.num_free_entries = s.capacity := by
  have hI := reach_inv e N s L hR
  have hc := poolInv_card e N s L hI
  have hcap : s.capacity = N := hI.1
  refine ⟨by omega, ?_⟩
  simp only [get_stats]
  omega

theorem conservation_witness :
    (mkPool 4 3).num_free_entries ≤ (mkPool 4 3).capacity ∧
    (get_stats (mkPool 4 3)).allocation_count +
      (mkPool 4 3).num_free_entries = (mkPool 4 3).capacity :=
  conservation 4 3 (mkPool 4 3) ∅ (Reach.init (by decide))

/-- C7 counterexample: with entry size 4 and capacity 64 — the exact
configuration of the repository's own tests, whose second allocation is
checked to sit 4 bytes after the first — the second `allocate()` from a
fresh pool returns entry 1, whose address `block + 1*4` is not 64-byte
aligned even though the block base (128 here) is 64-byte aligned. -/
theorem address_alignment_counterexample :
    (64 : Nat) ∣ 128 ∧
    (allocRun (mkPool 4 64) 2).1 = [some 0, some 1] ∧
    ¬ (64 : Nat) ∣ element_at (mkPool 4 64) 128 1 := by
  decide

/-- C7 amended: every non-null address returned by `allocate()` lies in
`[block, block + capacity*entry_size)`, is aligned to at least
`gcd 64 entry_size` (so to 64 bytes exactly when the entry size is a
multiple of 64; the block base itself — the first entry — is 64-byte
aligned), and no two simultaneously-live entries share an address. -/
theorem address_range_distinct (e N b : Nat) (s : PoolState) (L : Finset Nat)
    (p : Nat) (hR : Reach e N s L) (he : 0 < e) (hb : 64 ∣ b)
    (hA : (allocate s).1 = some p) :
    b ≤ element_at s b p ∧
    element_at s b p < b + s.capacity * s.entry_size ∧
    Nat.gcd 64 s.entry_size ∣ element_at s b p ∧
    (∀ q ∈ L, element_at s b q ≠ element_at s b p) ∧
    (∀ i ∈ L, ∀ j ∈ L, i ≠ j → element_at s b i ≠ element_at s b j) := by
  have hI := reach_inv e N s L hR
  obtain ⟨hpN, hpL, _⟩ := poolInv_alloc e N s L p hI hA
  obtain ⟨hcap, hesz, hlen, hlive, _⟩ := hI
  have hepos : 0 < s.entry_size := hesz ▸ he
  refine ⟨Nat.le_add_right b _, ?_, ?_, ?_, ?_⟩
  · simp only [element_at]
    have hmul : p * s.entry_size < s.capacity * s.entry_size :=
      mul_lt_mul_of_pos_right (hcap ▸ hpN) hepos
    omega
  · simp only [element_at]
    exact Nat.dvd_add (dvd_trans (Nat.gcd_dvd_left 64 _) hb)
      (Dvd.dvd.mul_left (Nat.gcd_dvd_right 64 _) p)
  · intro q hq heq
    simp only [element_at] at heq
    have hqe : q * s.entry_size = p * s.entry_size := by omega
    exact hpL (Nat.eq_of_mul_eq_mul_right hepos hqe ▸ hq)
  · intro i hi j hj hij heq
    simp only [element_at] at heq
    have hije : i * s.entry_size = j * s.entry_size := by omega
    exact hij (Nat.eq_of_mul_eq_mul_right hepos hije)

theorem address_range_distinct_witness :
    0 < 4 ∧ (64 : Nat) ∣ 64 ∧ (allocate (mkPool 4 2)).1 = some 0 ∧
    64 ≤ element_at (mkPool 4 2) 64 0 ∧
    element_at (mkPool 4 2) 64 0 <
      64 + (mkPool 4 2).capacity * (mkPool 4 2).entry_size ∧
    Nat.gcd 64 (mkPool 4 2).entry_size ∣ element_at (mkPool 4 2) 64 0 :=
  ⟨by decide, by decide, by decide,
    (address_range_distinct 4 2 64 (mkPool 4 2) ∅ 0 (Reach.init (by decide))
      (by decide) (by decide) (by decide)).1,
    (address_range_distinct 4 2 64 (mkPool 4 2) ∅ 0 (Reach.init (by decide))
      (by decide) (by decide) (by decide)).2.1,
    (address_range_distinct 4 2 64 (mkPool 4 2) ∅ 0 (Reach.init (by decide))
      (by decide) (by decide) (by decide)).2.2.1⟩

/-- C8: the constructor does not check the result of `malloc_block`. Even
when the aligned-allocation primitive returns null, construction completes
normally (`Except.ok`) with the null block stored and the free-chain
initialization performed through it — no failure is checked for or
surfaced, contradicting the claim (the spec itself flags this as a latent
defect of the source). -/
theorem construction_null_block_unchecked :
    constructPool 4 8 none =
      Except.ok { pool_mem := none, state := mkPool 4 8 } := rfl

/-- C9: in every reachable state the free count is zero exactly when the
free head is null; allocating the last free entry sets the head to null
without reading that slot's stored link (true of every state with free
count 1, whatever the slot holds), and deallocating into an empty free
list restores a non-null head whose slot stores the sentinel `capacity`. -/
theorem freecount_zero_iff_null_head (e N : Nat) (s : PoolState)
    (L : Finset Nat) (hR : Reach e N s L) :
    (s.num_free_entries = 0 ↔ s.next_free = none) ∧
    (s.num_free_entries = 1 → (allocate s).2.next_free = none) ∧
    (s.next_free = none → ∀ p, p < s.slots.length →
      (deallocate s p).next_free = some p ∧
      (deallocate s p).slots.getD p 0 = s.capacity) := by
  obtain ⟨hcap, hesz, hlen, hlive, fl, ⟨hnf, hch, hnd, hbd, hcnt⟩, hdisj, hcov⟩ :=
    reach_inv e N s L hR
  refine ⟨⟨fun h0 => ?_, fun hn => ?_⟩, fun h1 => ?_, fun hn p hp => ⟨rfl, ?_⟩⟩
  · cases fl with
    | nil => simpa using hnf
    | cons a tl =>
        rw [h0] at hcnt
        simp at hcnt
  · cases fl with
    | nil => simpa using hcnt.symm
    | cons a tl =>
        rw [hn] at hnf
        simp at hnf
  · rw [allocate_of_one s h1]
  · simp only [deallocate, hn]
    exact getD_set_self s.slots p _ hp

theorem freecount_zero_iff_null_head_witness :
    ((mkPool 4 2).num_free_entries = 0 ↔ (mkPool 4 2).next_free = none) ∧
    ((mkPool 4 2).num_free_entries = 1 →
      (allocate (mkPool 4 2)).2.next_free = none) :=
  ⟨(freecount_zero_iff_null_head 4 2 (mkPool 4 2) ∅ (Reach.init (by decide))).1,
    (freecount_zero_iff_null_head 4 2 (mkPool 4 2) ∅
      (Reach.init (by decide))).2.1⟩

/-- C10: a pool constructed with capacity 0 trips no defensive check:
construction completes with free count 0, every subsequent `allocate()`
returns null (leaving the state unchanged), `get_stats().allocation_count`
is 0, and the destructor's `num_free_entries_ == max_entries_` assertion
holds. -/
theorem capacity_zero_pool (e k : Nat) :
    (mkPool e 0).num_free_entries = 0 ∧
    ((allocRun (mkPool e 0) k).1.all fun r => r.isNone) = true ∧
    (get_stats (allocRun (mkPool e 0) k).2).allocation_count = 0 ∧
    destructor_check (allocRun (mkPool e 0) k).2 := by
  have h0 : (mkPool e 0).num_free_entries = 0 := rfl
  have hrun := allocRun_of_exhausted (mkPool e 0) k h0
  rw [hrun]
  refine ⟨rfl, ?_, rfl, ?_⟩
  · simp [List.all_eq_true, List.eq_of_mem_replicate]
  · exact rfl
